import Mathlib

/-!
# Verification of svnmailer core logic

Shallow embedding of the svnmailer core (group matching/merging in
`main.py`, the truncating/splitting stream machinery in `stream.py`,
and the notifier decorator logic in `notifier/_textmail.py` and
`notifier/_multimail.py`), with theorems checking the natural-language
specification against it.

Byte strings are modelled as `List Char`; `len` is the list length.
-/

namespace Svnmailer

/-! ## stream.py -/

/-- Python 2 `str.splitlines(True)`: split keeping the line ends; the
recognized boundaries for byte strings are `\n`, `\r` and `\r\n`. -/
def splitLinesAux : List Char → List Char → List (List Char)
  | [], acc => if acc.isEmpty then [] else [acc.reverse]
  | '\r' :: '\n' :: rest, acc => (acc.reverse ++ ['\r', '\n']) :: splitLinesAux rest []
  | '\r' :: rest, acc => (acc.reverse ++ ['\r']) :: splitLinesAux rest []
  | '\n' :: rest, acc => (acc.reverse ++ ['\n']) :: splitLinesAux rest []
  | c :: rest, acc => splitLinesAux rest (c :: acc)

/-- `towrite.splitlines(True)` from `TruncatingStream.write`. -/
def splitLines (s : List Char) : List (List Char) :=
  splitLinesAux s []

/-- Total byte length of a list of lines. -/
def sumLen (ls : List (List Char)) : Nat :=
  (ls.map List.length).sum

/-- State of `stream.TruncatingStream` (`stream.py`), together with the
content `buf` of the wrapped stream (a `cStringIO` buffer). -/
structure TruncStream where
  maxsize : Nat
  add_note : Bool
  current : Nat
  trunced : Nat
  /-- `lastchar` is a Python string of length 0 or 1 (`towrite[-1:]`). -/
  lastchar : List Char
  buf : List Char
  deriving Repr, DecidableEq

/-- `TruncatingStream.__init__`: fresh stream over an empty buffer. -/
def TruncStream.new (maxsize : Nat) (add_note : Bool) : TruncStream :=
  { maxsize := maxsize, add_note := add_note, current := 0, trunced := 0,
    lastchar := ['\n'], buf := [] }

/-- Result of the `for line in towrite.splitlines(True)` loop inside
`TruncatingStream.write`. -/
structure LoopRes where
  current : Nat
  out : List Char
  written : Nat
  broke : Bool
  deriving Repr, DecidableEq

/-- The line loop of `TruncatingStream.write`: each line is counted into
`current`; it is forwarded only while `current <= maxsize`; the first
line pushing past the limit breaks the loop. -/
def writeLoop (maxsize : Nat) : Nat → List (List Char) → LoopRes
  | current, [] => ⟨current, [], 0, false⟩
  | current, line :: rest =>
    let cur2 := current + line.length
    if cur2 ≤ maxsize then
      let r := writeLoop maxsize cur2 rest
      ⟨r.current, line ++ r.out, line.length + r.written, r.broke⟩
    else
      ⟨cur2, [], 0, true⟩

/-- Python `towrite[-1:]`. -/
def lastOne (l : List Char) : List Char :=
  match l.getLast? with
  | none => []
  | some c => [c]

/-- `TruncatingStream.write`. Mirrors the source: the line loop runs only
while `current <= maxsize`; on break the remainder `towrite[written:]`
is kept; afterwards, if `current > maxsize`, the remainder's newlines
are counted into `trunced` and `lastchar` becomes its last character. -/
def TruncStream.write (st : TruncStream) (towrite : List Char) : TruncStream :=
  let phase1 : Nat × List Char × List Char :=
    if st.current ≤ st.maxsize then
      let r := writeLoop st.maxsize st.current (splitLines towrite)
      (r.current, r.out, if r.broke then towrite.drop r.written else towrite)
    else
      (st.current, [], towrite)
  let cur2 := phase1.1
  let rem := phase1.2.2
  if st.maxsize < cur2 then
    { st with current := cur2, buf := st.buf ++ phase1.2.1,
              trunced := st.trunced + rem.count '\n', lastchar := lastOne rem }
  else
    { st with current := cur2, buf := st.buf ++ phase1.2.1 }

/-- A sequence of `write` calls. -/
def TruncStream.writeAll (st : TruncStream) (ws : List (List Char)) : TruncStream :=
  ws.foldl TruncStream.write st

/-- `TruncatingStream.getTruncatedLineCount`:
`self.trunced + (self.lastchar != "\n")`. -/
def TruncStream.getTruncatedLineCount (st : TruncStream) : Nat :=
  st.trunced + (if st.lastchar ≠ ['\n'] then 1 else 0)

/-- `TruncatingStream.writeWithoutTruncation`. -/
def TruncStream.writeWithoutTruncation (st : TruncStream) (towrite : List Char) :
    TruncStream :=
  { st with buf := st.buf ++ towrite }

/-- The note appended by `TruncatingStream.getvalue`:
`"\n[... %d lines stripped ...]\n" % num`. -/
def strippedNote (num : Nat) : List Char :=
  "\n[... ".toList ++ (toString num).toList ++ " lines stripped ...]\n".toList

/-- `TruncatingStream.getvalue`: the buffer content, with the stripped-lines
note appended once when `add_note` is set and lines were dropped. -/
def TruncStream.getvalue (st : TruncStream) : List Char :=
  if st.add_note ∧ st.getTruncatedLineCount ≠ 0 then
    st.buf ++ strippedNote st.getTruncatedLineCount
  else
    st.buf

/-! Specification-side helpers (independent of the implementation): the
greedy cutoff at whole-line granularity, and newline-delimited line
counting. -/

/-- Number of leading lines that fit: greedily count lines while the running
total (starting at `acc`) stays within `maxsize`. -/
def fitCount (maxsize : Nat) : Nat → List (List Char) → Nat
  | _, [] => 0
  | acc, l :: ls =>
    if acc + l.length ≤ maxsize then fitCount maxsize (acc + l.length) ls + 1
    else 0

/-- The byte length of the content before the cutoff: total length of the
lines of `content` that fit within `maxsize`. -/
def fitLen (maxsize : Nat) (content : List Char) : Nat :=
  sumLen ((splitLines content).take (fitCount maxsize 0 (splitLines content)))

/-- Number of newline-delimited lines of `l`, counting a final partial line
with no trailing newline as one line. -/
def nlLineCount (l : List Char) : Nat :=
  l.count '\n' + (if l ≠ [] ∧ l.getLast? ≠ some '\n' then 1 else 0)

/-- Invariant of a `TruncatingStream` that has processed exactly the lines
`L` (the per-write line decompositions, concatenated) since creation:
either nothing overflowed yet — the buffer holds everything and the
line/char bookkeeping is pristine — or the limit was passed, the buffer
holds exactly the greedy whole-line fit, and at least one dropped line is
reported. -/
def TruncInv (m : Nat) (note : Bool) (L : List (List Char)) (st : TruncStream) :
    Prop :=
  st.maxsize = m ∧ st.add_note = note ∧
  ((sumLen L ≤ m ∧ st.current = sumLen L ∧ st.buf = L.flatten ∧
    st.trunced = 0 ∧ st.lastchar = ['\n'])
   ∨ (m < sumLen L ∧ m < st.current ∧
      st.buf = (L.take (fitCount m 0 L)).flatten ∧
      1 ≤ st.getTruncatedLineCount))

/-! ## settings: group containers (`settings/__init__.py`, `_typedstruct.py`) -/

/-- Values of the `show_nonmatching_paths` option (`XPATH` tokens). -/
inductive XPath where
  | yes
  | no
  | ignore
  deriving Repr, DecidableEq

/-- A group settings container (`GroupSettingsContainer`). A compiled
regular expression is embedded as its matching predicate; `none` models an
unset option. Besides the fields listed in `eqignore` (which the
value-equality of the container skips), a representative selection of the
compared fields is carried: `show_nonmatching_paths`,
`commit_subject_template` and `max_subject_length` stand for the
remaining rendered-output-relevant options. -/
structure Group where
  /-- `_name` (in `eqignore`). -/
  name : String
  /-- `for_repos` (in `eqignore`). -/
  for_repos : Option (String → Bool)
  /-- `for_paths` (in `eqignore`). -/
  for_paths : Option (String → Bool)
  /-- `exclude_paths` (in `eqignore`). -/
  exclude_paths : Option (String → Bool)
  /-- `ignore_if_other_matches` (in `eqignore`). -/
  ignore_if_other_matches : Bool
  /-- `to_addr` (in `eqignore`). -/
  to_addr : List String
  /-- `show_nonmatching_paths` (compared). -/
  show_nonmatching_paths : XPath
  /-- `commit_subject_template` (compared). -/
  commit_subject_template : String
  /-- `max_subject_length` (compared). -/
  max_subject_length : Nat

/-- The generated `__eq__` of the typed struct (`_typedstruct.py`,
`_generateEq`): compare every member not listed in `eqignore`. -/
def eqGroup (a b : Group) : Bool :=
  decide (a.show_nonmatching_paths = b.show_nonmatching_paths) &&
  decide (a.commit_subject_template = b.commit_subject_template) &&
  decide (a.max_subject_length = b.max_subject_length)

/-- `ConfigFileSettings._extractGroupSections`: one group per config
section; when the file has no group sections, the `[defaults]`-derived
container is used as the single group. -/
def extractGroupSections (sections : List Group) (defaults : Group) : List Group :=
  if sections.isEmpty then [defaults] else sections

/-! ## main.py: group matching and groupset building -/

/-- One changed path (`subversion` change descriptor): the stored path
never carries a trailing slash; the directory flag is separate. -/
structure Change where
  path : String
  isDirectory : Bool
  deriving Repr, DecidableEq

/-- `Main._getGroupsByChange`: `"%s%s" % (change.path, ["", "/"][change.isDirectory()])`
— directories get a trailing slash for the path tests. -/
def changeTestPath (c : Change) : String :=
  c.path ++ (if c.isDirectory then "/" else "")

/-- The three predicate tests of the `Main._getGroupsByChange` loop body:
`for_repos` set and not matching ⟹ skip; `exclude_paths` set and
matching ⟹ skip; `for_paths` set and not matching ⟹ skip. -/
def appliesTo (g : Group) (repos_path path : String) : Bool :=
  (match g.for_repos with | none => true | some r => r repos_path) &&
  !(match g.exclude_paths with | none => false | some r => r path) &&
  (match g.for_paths with | none => true | some r => r path)

/-- The accumulation loop of `Main._getGroupsByChange`: walk the groups in
configuration order, appending each applying group to `selected_groups`
or (when `ignore_if_other_matches` is set) to `ignored_groups`. -/
def gbcLoop (repos_path path : String) : List Group → List Group × List Group
  | [] => ([], [])
  | g :: rest =>
    if appliesTo g repos_path path then
      let r := gbcLoop repos_path path rest
      if g.ignore_if_other_matches then (r.1, g :: r.2) else (g :: r.1, r.2)
    else
      gbcLoop repos_path path rest

/-- `Main._getGroupsByChange`:
`return selected_groups and selected_groups or ignored_groups`. -/
def getGroupsByChange (groups : List Group) (repos_path : String) (c : Change) :
    List Group :=
  let r := gbcLoop repos_path (changeTestPath c) groups
  if r.1.isEmpty then r.2 else r.1

/-- Same loop on index-tagged groups; the index models Python object
identity (`id(group)`), the key of `group_changes` in `Main._getGroupSets`. -/
def gbcLoopIdx (repos_path path : String) : List (Nat × Group) → List Nat × List Nat
  | [] => ([], [])
  | (i, g) :: rest =>
    if appliesTo g repos_path path then
      let r := gbcLoopIdx repos_path path rest
      if g.ignore_if_other_matches then (r.1, i :: r.2) else (i :: r.1, r.2)
    else
      gbcLoopIdx repos_path path rest

/-- `Main._getGroupsByChange`, returning group identities. -/
def getGroupIdxsByChange (groups : List Group) (repos_path : String) (c : Change) :
    List Nat :=
  let r := gbcLoopIdx repos_path (changeTestPath c) groups.enum
  if r.1.isEmpty then r.2 else r.1

/-- The `group_changes` dictionary of `Main._getGroupSets` as an association
list keyed by group identity: `group_changes[groupid].append(change)`,
creating the entry on `KeyError`. -/
def addChange (i : Nat) (c : Change) : List (Nat × List Change) → List (Nat × List Change)
  | [] => [(i, [c])]
  | (j, cs) :: rest =>
    if j = i then (j, cs ++ [c]) :: rest else (j, cs) :: addChange i c rest

/-- The accumulation phase of `Main._getGroupSets`: for every change, for
every matching group, append the change to that group's change list. -/
def accumulate (groups : List Group) (repos_path : String) (changes : List Change) :
    List (Nat × List Change) :=
  changes.foldl
    (fun acc c => (getGroupIdxsByChange groups repos_path c).foldl
      (fun acc2 i => addChange i c acc2) acc)
    []

/-- A groupset (`main.GroupSet`): equivalent groups, their common change
list, and the non-matching changes governed by
`groups[0].show_nonmatching_paths` (`ignore` ⟹ unset, `yes` ⟹ all other
changes, `no` ⟹ empty-but-present). -/
structure GroupSet where
  groups : List Group
  changes : List Change
  xchanges : Option (List Change)

/-- `GroupSet.__init__`. -/
def mkGroupSet (groups : List Group) (changes allchanges : List Change) : GroupSet :=
  { groups := groups, changes := changes,
    xchanges :=
      match groups.head? with
      | none => none
      | some g =>
        match g.show_nonmatching_paths with
        | XPath.ignore => none
        | XPath.yes => some (allchanges.filter (fun ch => ch ∉ changes))
        | XPath.no => some [] }

/-- The merge test of `Main._getGroupSets`:
`stored.changes == changelist and stored.groups[0] == group` — identical
change list and value-equal (under `eqignore`) representative group. -/
def mergeCond (g : Group) (cl : List Change) (s : GroupSet) : Bool :=
  decide (s.changes = cl) && (match s.groups.head? with
                              | some h => eqGroup h g
                              | none => false)

/-- The merge scan of `Main._getGroupSets`: find the first stored set with
the identical change list whose first group is value-equal to the
candidate, and append the candidate to it; otherwise append a fresh
`GroupSet` at the end. -/
def mergeInto (g : Group) (cl allchanges : List Change) :
    List GroupSet → List GroupSet
  | [] => [mkGroupSet [g] cl allchanges]
  | s :: rest =>
    if mergeCond g cl s then
      { s with groups := s.groups ++ [g] } :: rest
    else
      s :: mergeInto g cl allchanges rest

/-- A fallback group value for the (unreachable) cache miss of
`group_cache[groupid]`. -/
def group0 : Group :=
  { name := "", for_repos := none, for_paths := none, exclude_paths := none,
    ignore_if_other_matches := false, to_addr := [],
    show_nonmatching_paths := XPath.no, commit_subject_template := "",
    max_subject_length := 0 }

/-- `Main._getGroupSets`: accumulate per-group change lists, then build the
groupset list by merging value-equal groups with identical change lists. -/
def getGroupSets (groups : List Group) (repos_path : String) (changes : List Change) :
    List GroupSet :=
  (accumulate groups repos_path changes).foldl
    (fun sets p => mergeInto (groups.getD p.1 group0) p.2 changes sets)
    []

/-! ## notifier/_textmail.py: split-mode finishing -/

/-- One produced text mail: the optional `[i/N]` count token handed to
`getMailSubject`, and the body. -/
structure TMail where
  countToken : Option String
  body : List Char
  deriving Repr, DecidableEq

/-- Pieces of the drop notice of `SplittingDecorator._getTextMails`
(`_textmail.py`). -/
def dropNoticeA : List Char :=
  "\n[This commit notification would consist of ".toList

/-- Middle piece of the drop notice. -/
def dropNoticeB : List Char :=
  " parts, \nwhich exceeds the limit of ".toList

/-- Final piece of the drop notice. -/
def dropNoticeC : List Char :=
  " ones, so it was shortened to the summary.]\n".toList

/-- `"\n[This commit notification would consist of %d parts, \nwhich exceeds
the limit of %d ones, so it was shortened to the summary.]\n" % (nummails, drop)`. -/
def dropNotice (nummails drop : Nat) : List Char :=
  dropNoticeA ++ (toString nummails).toList ++ dropNoticeB ++
    (toString drop).toList ++ dropNoticeC

/-- `SplittingStream.getPart`: out-of-range indices return `''`. -/
def getPart (parts : List (List Char)) (idx : Nat) : List Char :=
  (parts.get? idx).getD []

/-- The `[%d/%d]` count token. -/
def countToken (i n : Nat) : String :=
  "[" ++ toString i ++ "/" ++ toString n ++ "]"

/-- `SplittingDecorator._getTextMails` (`_textmail.py`), after the final
flush: `parts` are the dumped parts of the final `SplittingStream`,
`drop` the configured part limit (0 models None), `dropBody` the content
of the summary stream `drop_fp`. -/
def splitTextMails (parts : List (List Char)) (drop : Nat) (dropBody : List Char) :
    List TMail :=
  let nummails := parts.length
  if nummails = 1 then
    [⟨none, getPart parts 0⟩]
  else if drop ≠ 0 ∧ drop < nummails then
    [⟨none, dropBody ++ dropNotice nummails drop⟩]
  else
    (List.range nummails).map (fun idx => ⟨some (countToken (idx + 1) nummails), getPart parts idx⟩)

/-! ## notifier/_multimail.py: split-mode finishing -/

/-- First greedy loop of `SplittingDecorator._getMultiMails`
(`_multimail.py`): count the breaks where the running size exceeds the
limit; the running size restarts at the breaking diff's size. -/
def greedyCountAux (maxsize : Nat) : Nat → List Nat → Nat
  | _, [] => 0
  | tsize, s :: rest =>
    if maxsize < tsize + s then greedyCountAux maxsize s rest + 1
    else greedyCountAux maxsize (tsize + s) rest

/-- `nummails` of `SplittingDecorator._getMultiMails`: one mail plus one
per size-based break. -/
def greedyCount (maxsize asize : Nat) (sizes : List Nat) : Nat :=
  greedyCountAux maxsize asize sizes + 1

/-- A MIME part of a split multimail, by provenance. -/
inductive MPart where
  | summary (size : Nat)
  | header (i n : Nat)
  | diff (idx size : Nat)
  deriving Repr, DecidableEq

/-- Second greedy loop of `SplittingDecorator._getMultiMails`: pack the
diffs into mails, starting a fresh mail (with a `[Part i/N]` header part)
whenever the running size exceeds the limit; a mail is the pair of its
count token index and its parts. -/
def packLoop (maxsize nummails : Nat) : Nat → Nat → List MPart → List (Nat × Nat) →
    List (Nat × List MPart)
  | mcount, _, parts, [] =>
    if parts.isEmpty then [] else [(mcount, parts)]
  | mcount, asize, parts, (idx, size) :: rest =>
    if maxsize < asize + size then
      (mcount, parts) ::
        packLoop maxsize nummails (mcount + 1) size
          [MPart.header (mcount + 1) nummails, MPart.diff idx size] rest
    else
      packLoop maxsize nummails mcount (asize + size) (parts ++ [MPart.diff idx size]) rest

/-- Outcome of `SplittingDecorator._getMultiMails`. -/
inductive SplitOut where
  | single (parts : List MPart)
  | dropped (nummails drop : Nat)
  | packed (mails : List (Nat × List MPart))
  deriving Repr, DecidableEq

/-- `SplittingDecorator._getMultiMails` (`_multimail.py`): `asize` is the
serialized size of the summary part, `sizes` the serialized sizes of the
diff parts in order, `drop` the configured part limit (0 models None).
If everything fits (or there are no diffs) one mail carries all parts;
otherwise the greedy count decides between the drop fallback and packing. -/
def multiSplitMails (maxsize asize : Nat) (sizes : List Nat) (drop : Nat) : SplitOut :=
  if asize + sizes.sum ≤ maxsize ∨ sizes = [] then
    SplitOut.single (MPart.summary asize :: sizes.enum.map (fun p => MPart.diff p.1 p.2))
  else
    let nummails := greedyCount maxsize asize sizes
    if drop ≠ 0 ∧ drop < nummails then
      SplitOut.dropped nummails drop
    else
      SplitOut.packed (packLoop maxsize nummails 1 asize [MPart.summary asize] sizes.enum)

/-- Number of mails actually emitted for a `SplitOut`. -/
def emittedCount : SplitOut → Nat
  | SplitOut.single _ => 1
  | SplitOut.dropped _ _ => 1
  | SplitOut.packed mails => mails.length

/-! ## decorator selection (`decorateNotifier` in both notifier modules) -/

/-- `long_mail_action` overflow modes. -/
inductive AMode where
  | truncate
  | urls
  | split
  deriving Repr, DecidableEq

/-- `runtime.mode` values (`MODES` tokens). -/
inductive RMode where
  | commit
  | propchange
  | lock
  | unlock
  deriving Repr, DecidableEq

/-- A parsed `long_mail_action` value: `maxbytes`, mode, truncate submode,
scope flags (`revprop`, `locks`) and the drop limit. -/
structure MailAction where
  maxbytes : Nat
  mode : AMode
  truncate : Bool
  scopeRevprop : Bool
  scopeLocks : Bool
  drop : Nat
  deriving Repr, DecidableEq

/-- A decorator mixed onto the notifier class, outermost first. -/
inductive DecoLayer where
  | truncating
  | url
  | urlTruncating
  | splitting
  | splitTruncating
  deriving Repr, DecidableEq

/-- `decorateNotifier` of `_textmail.py`: the resulting decorator stack
(outermost first; `[]` means the bare notifier class is used). -/
def textDecorate (action : Option MailAction) (mode : RMode) : List DecoLayer :=
  match action with
  | none => []
  | some a =>
    let is_commit : Bool := decide (mode = RMode.commit)
    let other : Bool :=
      (a.scopeRevprop && decide (mode = RMode.propchange)) ||
      (a.scopeLocks && (decide (mode = RMode.lock) || decide (mode = RMode.unlock)))
    if a.maxbytes ≠ 0 ∧ (is_commit || other) = true then
      match a.mode with
      | AMode.truncate => [DecoLayer.truncating]
      | AMode.urls =>
        let base := if is_commit then [DecoLayer.url] else []
        if a.truncate then
          (if is_commit then DecoLayer.urlTruncating else DecoLayer.truncating) :: base
        else base
      | AMode.split =>
        let base := if a.truncate then [DecoLayer.truncating] else []
        if is_commit then DecoLayer.splitting :: base else base
    else []

/-- `decorateNotifier` of `_multimail.py`: no event-kind or scope check at
all; only the presence of an action with non-zero `maxbytes` counts. -/
def multiDecorate (action : Option MailAction) : List DecoLayer :=
  match action with
  | none => []
  | some a =>
    if a.maxbytes ≠ 0 then
      match a.mode with
      | AMode.truncate => [DecoLayer.truncating]
      | AMode.urls =>
        if a.truncate then [DecoLayer.urlTruncating, DecoLayer.url] else [DecoLayer.url]
      | AMode.split =>
        if a.truncate then [DecoLayer.splitTruncating, DecoLayer.splitting]
        else [DecoLayer.splitting]
    else []

/-! ## notifier URL decorators (showLinksOnly mode) -/

/-- `_textmail.py` `URLDecorator.writeDiffList` note when a browser base
URL is configured. -/
def urlsOnlyNoteText : List Char :=
  "\n[This mail would be too long, it was shortened to contain the URLs only.]\n\n".toList

/-- `_textmail.py` `URLDecorator.writeDiffList` degraded note when no
browser base URL is configured. -/
def degradedNoteText : List Char :=
  ("\n[This mail would be too long, it should contain the URLs only, " ++
   "but no browser base url was configured...]\n").toList

/-- `_multimail.py` `URLDecorator._getMultiMails` note when a browser base
URL is configured (no trailing blank line there). -/
def urlsOnlyNoteMulti : List Char :=
  "\n[This mail would be too long, it was shortened to contain the URLs only.]\n".toList

/-- `_multimail.py` degraded note (same text as the textmail one). -/
def degradedNoteMulti : List Char :=
  degradedNoteText

/-- The showLinksOnly composition of `_textmail.py` (`URLDecorator`, plus
`URLTruncatingDecorator` when the truncate submode is set): the primary
content (metadata, path list, diffs) runs through a noteless
`TruncatingStream`; the secondary buffer collects metadata, path list,
the notice from `writeDiffList` and the per-change URL lines. At the end
(`writeNotification`) the primary stream is swapped for the secondary
buffer iff the primary Truncate wrapper reports dropped lines; the
secondary buffer itself runs through a note-adding `TruncatingStream`
when the truncate submode is set. -/
def composeUrlMode (maxsize : Nat) (truncSub browserConf : Bool)
    (metadata pathlist diffs urlLines : List Char) : List Char :=
  let primarySt := (TruncStream.new maxsize false).writeAll [metadata, pathlist, diffs]
  let note := if browserConf then urlsOnlyNoteText else degradedNoteText
  if primarySt.getTruncatedLineCount ≠ 0 then
    if truncSub then
      ((TruncStream.new maxsize true).writeAll
        [metadata, pathlist, note, urlLines]).getvalue
    else metadata ++ pathlist ++ note ++ urlLines
  else primarySt.getvalue

/-- `URLDecorator._getMultiMails` of `_multimail.py`: the emitted mails,
each a list of part bodies. `summary` is what the composer wrote to the
primary sink (metadata and path list), `diffSizes` the diff part sizes,
`urlValue` the content of the secondary URL buffer. When the truncate
submode is on, the primary sink is a note-adding `TruncatingStream`; if
it reports dropped lines the single emitted part is the (truncated)
primary value. Otherwise the size estimate decides between the plain
full mail and the URL-only fallback. -/
def multiUrlMails (maxsize : Nat) (do_truncate browserConf : Bool)
    (summary : List Char) (diffSizes : List Nat) (urlValue : List Char) :
    List (List (List Char)) :=
  let tfp := (TruncStream.new maxsize true).write summary
  let fpVal := if do_truncate then tfp.getvalue else summary
  let truncCount := if do_truncate then tfp.getTruncatedLineCount else 0
  if do_truncate ∧ truncCount ≠ 0 then
    [[fpVal]]
  else
    let asize := fpVal.length
    if asize + diffSizes.sum ≤ maxsize ∨ diffSizes = [] then
      [fpVal :: diffSizes.map (fun _ => [])]
    else if browserConf = false then
      [[if do_truncate then (tfp.write degradedNoteMulti).getvalue
        else summary ++ degradedNoteMulti]]
    else
      let fpVal2 := if do_truncate then (tfp.write urlsOnlyNoteMulti).getvalue
                    else summary ++ urlsOnlyNoteMulti
      let urlOut := if do_truncate then
          ((TruncStream.new (maxsize - fpVal2.length) true).write urlValue).getvalue
        else urlValue
      [[fpVal2, urlOut]]

/-! ## main.py: Main.run error aggregation -/

/-- What a notifier's `run()` does in our model. -/
inductive NotifierOutcome where
  | ok
  | keyboardInterrupt
  | systemExit
  | svnError (msg : String)
  | failure (msg : String)
  deriving Repr, DecidableEq

/-- One notifier of a groupset: its module name, the group names of its
groupset (used in the backtrace header), and its outcome. -/
structure NotifierRun where
  module : String
  groupNames : List String
  outcome : NotifierOutcome
  deriving Repr, DecidableEq

/-- Result of `Main.run`. -/
inductive RunResult where
  | ok
  | interrupted
  | exited
  | repositoryError (msg : String)
  | notifierError (records : List String)
  deriving Repr, DecidableEq

/-- The backtrace record built in `Main.run` for a failed notifier:
`"Notifier: %s.%s\nRevision: %s\nGroups: %r\n%s"`. -/
def failureRecord (revision : Nat) (n : NotifierRun) (msg : String) : String :=
  "Notifier: " ++ n.module ++ "\nRevision: " ++ toString revision ++
    "\nGroups: " ++ String.intercalate ", " n.groupNames ++ "\n" ++ msg

/-- The inner notifier loop of `Main.run`: `KeyboardInterrupt`,
`SystemExit` and `subversion.Error` propagate (the latter re-raised as
`RepositoryError`); any other exception is recorded and the loop
continues. -/
def runInner (revision : Nat) (errs : List String) :
    List NotifierRun → List String ⊕ RunResult
  | [] => Sum.inl errs
  | n :: rest =>
    match n.outcome with
    | NotifierOutcome.ok => runInner revision errs rest
    | NotifierOutcome.keyboardInterrupt => Sum.inr RunResult.interrupted
    | NotifierOutcome.systemExit => Sum.inr RunResult.exited
    | NotifierOutcome.svnError m => Sum.inr (RunResult.repositoryError m)
    | NotifierOutcome.failure m =>
      runInner revision (errs ++ [failureRecord revision n m]) rest

/-- The groupset loop of `Main.run`; after all groupsets, the collected
records are raised together as one `NotifierError` (or nothing). -/
def runOuter (revision : Nat) (errs : List String) :
    List (List NotifierRun) → RunResult
  | [] => if errs.isEmpty then RunResult.ok else RunResult.notifierError errs
  | gs :: rest =>
    match runInner revision errs gs with
    | Sum.inl errs2 => runOuter revision errs2 rest
    | Sum.inr r => r

/-- `Main.run` over the notifiers selected per groupset. -/
def runMain (revision : Nat) (groupsets : List (List NotifierRun)) : RunResult :=
  runOuter revision [] groupsets

/-- The records of all non-throwable failures of an event, in order. -/
def failureRecords (revision : Nat) (groupsets : List (List NotifierRun)) :
    List String :=
  groupsets.flatten.filterMap (fun n =>
    match n.outcome with
    | NotifierOutcome.failure m => some (failureRecord revision n m)
    | _ => none)

/-- A benign outcome: `run()` returned or raised a collectable exception. -/
def benign : NotifierOutcome → Bool
  | NotifierOutcome.ok => true
  | NotifierOutcome.failure _ => true
  | _ => false

/-! ## Supporting lemmas: splitLines and the fit cutoff -/

theorem splitLinesAux_flatten : ∀ (l acc : List Char),
    (splitLinesAux l acc).flatten = acc.reverse ++ l := by
  intro l acc
  induction l, acc using splitLinesAux.induct <;>
    simp_all [splitLinesAux, List.isEmpty_iff]

theorem splitLines_flatten (l : List Char) : (splitLines l).flatten = l := by
  simpa [splitLines] using splitLinesAux_flatten l []

theorem mem_splitLines_ne_nil (l : List Char) : ∀ x ∈ splitLines l, x ≠ [] := by
  have : ∀ (l acc : List Char), ∀ x ∈ splitLinesAux l acc, x ≠ [] := by
    intro l acc
    induction l, acc using splitLinesAux.induct <;>
      simp_all [splitLinesAux, List.isEmpty_iff]
  exact this l []

theorem sumLen_cons (l : List Char) (ls : List (List Char)) :
    sumLen (l :: ls) = l.length + sumLen ls := by
  simp [sumLen]

theorem sumLen_append (a b : List (List Char)) :
    sumLen (a ++ b) = sumLen a + sumLen b := by
  simp [sumLen]

theorem sumLen_eq_length_flatten (ls : List (List Char)) :
    sumLen ls = ls.flatten.length := by
  simp [sumLen, List.length_flatten]

theorem sumLen_take_le : ∀ (n : Nat) (ls : List (List Char)),
    sumLen (ls.take n) ≤ sumLen ls := by
  intro n ls
  induction ls generalizing n with
  | nil => simp [sumLen]
  | cons l ls ih =>
    cases n with
    | zero => simp [sumLen]
    | succ n =>
      simp only [List.take_succ_cons, sumLen_cons]
      exact Nat.add_le_add_left (ih n) _

theorem sumLen_splitLines (l : List Char) : sumLen (splitLines l) = l.length := by
  rw [sumLen_eq_length_flatten, splitLines_flatten]

theorem flatten_take_eq_take_flatten : ∀ (k : Nat) (ls : List (List Char)),
    (ls.take k).flatten = ls.flatten.take (sumLen (ls.take k)) := by
  intro k ls
  have h1 : ls.flatten = (ls.take k).flatten ++ (ls.drop k).flatten := by
    rw [← List.flatten_append, List.take_append_drop]
  rw [h1, sumLen_eq_length_flatten, List.take_left]

theorem fitCount_le_length (m : Nat) : ∀ (ls : List (List Char)) (acc : Nat),
    fitCount m acc ls ≤ ls.length := by
  intro ls
  induction ls with
  | nil => simp [fitCount]
  | cons l ls ih =>
    intro acc
    simp only [fitCount]
    split
    · exact Nat.succ_le_succ (ih _)
    · exact Nat.zero_le _

theorem fitCount_eq_length_of_le (m : Nat) : ∀ (ls : List (List Char)) (acc : Nat),
    acc + sumLen ls ≤ m → fitCount m acc ls = ls.length := by
  intro ls
  induction ls with
  | nil => simp [fitCount]
  | cons l ls ih =>
    intro acc h
    rw [sumLen_cons] at h
    have h1 : acc + l.length ≤ m := by omega
    simp only [fitCount, if_pos h1, List.length_cons]
    have h2 : acc + l.length + sumLen ls ≤ m := by omega
    rw [ih _ h2]

theorem fitCount_fit (m : Nat) : ∀ (ls : List (List Char)) (acc : Nat),
    acc ≤ m → acc + sumLen (ls.take (fitCount m acc ls)) ≤ m := by
  intro ls
  induction ls with
  | nil => simp [fitCount, sumLen]
  | cons l ls ih =>
    intro acc h
    simp only [fitCount]
    split
    · next h1 =>
      simp only [List.take_succ_cons, sumLen_cons]
      have := ih (acc + l.length) h1
      omega
    · simp [sumLen]; omega

theorem fitCount_break (m : Nat) : ∀ (ls : List (List Char)) (acc : Nat),
    fitCount m acc ls < ls.length →
    m < acc + sumLen (ls.take (fitCount m acc ls + 1)) := by
  intro ls
  induction ls with
  | nil => simp [fitCount]
  | cons l ls ih =>
    intro acc h
    simp only [fitCount, List.length_cons] at h ⊢
    split
    · next h1 =>
      rw [if_pos h1] at h
      simp only [List.take_succ_cons, sumLen_cons]
      have := ih (acc + l.length) (by omega)
      omega
    · next h1 =>
      simp only [List.take_succ_cons, List.take_zero]
      have hs : sumLen [l] = l.length := by simp [sumLen]
      rw [hs]
      omega

theorem fitCount_append_of_fit (m : Nat) : ∀ (xs ys : List (List Char)) (acc : Nat),
    fitCount m acc xs = xs.length →
    fitCount m acc (xs ++ ys) = xs.length + fitCount m (acc + sumLen xs) ys := by
  intro xs
  induction xs with
  | nil => simp [sumLen]
  | cons x xs ih =>
    intro ys acc h
    simp only [fitCount, List.length_cons] at h
    by_cases h1 : acc + x.length ≤ m
    · rw [if_pos h1] at h
      have h2 : fitCount m (acc + x.length) xs = xs.length := by omega
      have h3 : (x :: xs) ++ ys = x :: (xs ++ ys) := rfl
      rw [h3]
      simp only [fitCount, if_pos h1, List.length_cons]
      rw [ih ys (acc + x.length) h2, sumLen_cons]
      have h4 : acc + (x.length + sumLen xs) = acc + x.length + sumLen xs := by
        omega
      rw [h4]
      omega
    · rw [if_neg h1] at h
      omega

theorem fitCount_append_of_break (m : Nat) : ∀ (xs ys : List (List Char)) (acc : Nat),
    fitCount m acc xs < xs.length →
    fitCount m acc (xs ++ ys) = fitCount m acc xs := by
  intro xs
  induction xs with
  | nil => simp
  | cons x xs ih =>
    intro ys acc h
    simp only [fitCount, List.length_cons] at h
    have h3 : (x :: xs) ++ ys = x :: (xs ++ ys) := rfl
    rw [h3]
    by_cases h1 : acc + x.length ≤ m
    · rw [if_pos h1] at h
      simp only [fitCount, if_pos h1]
      rw [ih ys (acc + x.length) (by omega)]
    · simp only [fitCount, if_neg h1]

theorem writeLoop_eq (m : Nat) : ∀ (ls : List (List Char)) (cur : Nat),
    writeLoop m cur ls =
      ⟨(if fitCount m cur ls = ls.length then cur + sumLen ls
        else cur + sumLen (ls.take (fitCount m cur ls + 1))),
       (ls.take (fitCount m cur ls)).flatten,
       sumLen (ls.take (fitCount m cur ls)),
       decide (fitCount m cur ls < ls.length)⟩ := by
  intro ls
  induction ls with
  | nil =>
    intro cur
    simp [writeLoop, fitCount, sumLen]
  | cons l ls ih =>
    intro cur
    simp only [writeLoop]
    by_cases h : cur + l.length ≤ m
    · rw [if_pos h, ih (cur + l.length)]
      dsimp only
      have hfc : fitCount m cur (l :: ls) = fitCount m (cur + l.length) ls + 1 := by
        simp [fitCount, h]
      by_cases h2 : fitCount m (cur + l.length) ls = ls.length
      · have e1 : fitCount m cur (l :: ls) = (l :: ls).length := by
          rw [hfc, List.length_cons, h2]
        rw [if_pos h2, if_pos e1]
        simp only [hfc, List.take_succ_cons, sumLen_cons, List.flatten_cons,
          List.length_cons, LoopRes.mk.injEq]
        refine ⟨by omega, trivial, trivial, ?_⟩
        rw [decide_eq_decide]
        omega
      · have e1 : ¬(fitCount m cur (l :: ls) = (l :: ls).length) := by
          rw [hfc, List.length_cons]
          omega
        rw [if_neg h2, if_neg e1]
        simp only [hfc, List.take_succ_cons, sumLen_cons, List.flatten_cons,
          List.length_cons, LoopRes.mk.injEq]
        refine ⟨by omega, trivial, trivial, ?_⟩
        rw [decide_eq_decide]
        omega
    · rw [if_neg h]
      have hfc0 : fitCount m cur (l :: ls) = 0 := by
        simp [fitCount, h]
      have hcond : ¬(0 = (l :: ls).length) := by simp
      simp only [hfc0, hcond, if_false, iff_false, List.take_succ_cons,
        List.take_zero, List.flatten_nil, List.length_cons, LoopRes.mk.injEq,
        Nat.zero_add]
      refine ⟨?_, ?_⟩
      · simp [sumLen]
      · simp [sumLen]

theorem nlLineCount_pos (l : List Char) (h : l ≠ []) : 1 ≤ nlLineCount l := by
  unfold nlLineCount
  match hc : l.getLast? with
  | none =>
    rw [List.getLast?_eq_none_iff] at hc
    exact absurd hc h
  | some c =>
    by_cases hnl : c = '\n'
    · subst hnl
      have hmem : '\n' ∈ l := by
        rw [List.getLast?_eq_some_iff] at hc
        obtain ⟨ys, rfl⟩ := hc
        simp
      have := List.count_pos_iff.mpr hmem
      omega
    · have hcond : (l ≠ [] ∧ some c ≠ some '\n') := ⟨h, by simp [hnl]⟩
      rw [if_pos hcond]
      omega

theorem trunc_count_eq_nlLineCount (l : List Char) (h : l ≠ []) :
    l.count '\n' + (if lastOne l ≠ ['\n'] then 1 else 0) = nlLineCount l := by
  unfold nlLineCount lastOne
  match hc : l.getLast? with
  | none =>
    rw [List.getLast?_eq_none_iff] at hc
    exact absurd hc h
  | some c =>
    by_cases hnl : c = '\n'
    · subst hnl
      simp [h]
    · have h1 : ([c] ≠ ['\n']) := by simp [hnl]
      have h2 : (l ≠ [] ∧ some c ≠ some '\n') := ⟨h, by simp [hnl]⟩
      rw [if_pos h1, if_pos h2]

theorem write_fresh_under (m : Nat) (note : Bool) (content : List Char)
    (h : content.length ≤ m) :
    (TruncStream.new m note).write content =
      { maxsize := m, add_note := note, current := content.length, trunced := 0,
        lastchar := ['\n'], buf := content } := by
  have hsl : sumLen (splitLines content) = content.length := sumLen_splitLines content
  have hk : fitCount m 0 (splitLines content) = (splitLines content).length :=
    fitCount_eq_length_of_le m _ 0 (by omega)
  simp only [TruncStream.write, TruncStream.new, writeLoop_eq]
  simp [hk, hsl, splitLines_flatten, Nat.not_lt.mpr h]

theorem write_fresh_over (m : Nat) (note : Bool) (content : List Char)
    (h : m < content.length) :
    (TruncStream.new m note).write content =
      { maxsize := m, add_note := note,
        current := sumLen ((splitLines content).take
          (fitCount m 0 (splitLines content) + 1)),
        trunced := (content.drop (fitLen m content)).count '\n',
        lastchar := lastOne (content.drop (fitLen m content)),
        buf := content.take (fitLen m content) } := by
  have hsl : sumLen (splitLines content) = content.length := sumLen_splitLines content
  have hk : fitCount m 0 (splitLines content) < (splitLines content).length := by
    rcases Nat.lt_or_ge (fitCount m 0 (splitLines content))
      (splitLines content).length with hlt | hge
    · exact hlt
    · exfalso
      have heq : fitCount m 0 (splitLines content) = (splitLines content).length :=
        Nat.le_antisymm (fitCount_le_length m _ _) hge
      have := fitCount_fit m (splitLines content) 0 (Nat.zero_le m)
      rw [heq, List.take_length] at this
      omega
  have hbrk : m < 0 + sumLen ((splitLines content).take
      (fitCount m 0 (splitLines content) + 1)) :=
    fitCount_break m _ 0 hk
  have hfl : ((splitLines content).take (fitCount m 0 (splitLines content))).flatten
      = content.take (fitLen m content) := by
    rw [flatten_take_eq_take_flatten]
    unfold fitLen
    rw [splitLines_flatten]
  have hfit : fitLen m content = sumLen ((splitLines content).take
      (fitCount m 0 (splitLines content))) := rfl
  rw [Nat.zero_add] at hbrk
  simp only [TruncStream.write, TruncStream.new, writeLoop_eq]
  simp [hk, Nat.ne_of_lt hk, hfl, hfit, hbrk]

/-- C4: For the truncating stream with any positive byte limit: content
within the limit never produces the stripped-lines notice and is returned
unchanged; content over the limit produces the notice exactly once, and
the reported count is exactly the number of newline-delimited lines past
the whole-line cutoff, a final partial line counting as one. -/
theorem C4_truncate_roundtrip (maxsize : Nat) (content : List Char)
    (hpos : 0 < maxsize) :
    (content.length ≤ maxsize →
      ((TruncStream.new maxsize true).write content).getTruncatedLineCount = 0 ∧
      ((TruncStream.new maxsize true).write content).getvalue = content) ∧
    (maxsize < content.length →
      ((TruncStream.new maxsize true).write content).getTruncatedLineCount
        = nlLineCount (content.drop (fitLen maxsize content)) ∧
      1 ≤ nlLineCount (content.drop (fitLen maxsize content)) ∧
      ((TruncStream.new maxsize true).write content).getvalue
        = content.take (fitLen maxsize content)
          ++ strippedNote (nlLineCount (content.drop (fitLen maxsize content)))) := by
  constructor
  · intro h
    rw [write_fresh_under maxsize true content h]
    simp [TruncStream.getTruncatedLineCount, TruncStream.getvalue]
  · intro h
    have hfle : fitLen maxsize content ≤ maxsize := by
      have := fitCount_fit maxsize (splitLines content) 0 (Nat.zero_le maxsize)
      unfold fitLen
      omega
    have hrem : content.drop (fitLen maxsize content) ≠ [] := by
      have hlen : (content.drop (fitLen maxsize content)).length
          = content.length - fitLen maxsize content := List.length_drop _ _
      intro hnil
      rw [hnil] at hlen
      simp only [List.length_nil] at hlen
      omega
    have h1 : ((TruncStream.new maxsize true).write content).getTruncatedLineCount
        = nlLineCount (content.drop (fitLen maxsize content)) := by
      rw [write_fresh_over maxsize true content h]
      unfold TruncStream.getTruncatedLineCount
      exact trunc_count_eq_nlLineCount _ hrem
    have h2 : 1 ≤ nlLineCount (content.drop (fitLen maxsize content)) :=
      nlLineCount_pos _ hrem
    refine ⟨h1, h2, ?_⟩
    unfold TruncStream.getvalue
    rw [h1, write_fresh_over maxsize true content h]
    have hzero : nlLineCount (content.drop (fitLen maxsize content)) ≠ 0 := by
      omega
    simp [hzero]

/-- Closed instance of `C4_truncate_roundtrip` at limit 4 and content
`"ab\ncd\n"`, discharging the positivity hypothesis. -/
theorem C4_truncate_roundtrip_witness :
    0 < 4 ∧
    ((TruncStream.new 4 true).write ("ab\ncd\n".toList)).getTruncatedLineCount
      = nlLineCount (("ab\ncd\n".toList).drop (fitLen 4 ("ab\ncd\n".toList))) :=
  ⟨by decide,
   ((C4_truncate_roundtrip 4 ("ab\ncd\n".toList) (by decide)).2 (by decide)).1⟩

theorem one_le_truncpiece (l : List Char) :
    1 ≤ l.count '\n' + (if lastOne l ≠ ['\n'] then 1 else 0) := by
  unfold lastOne
  match hc : l.getLast? with
  | none => simp
  | some c =>
    by_cases hnl : c = '\n'
    · subst hnl
      have hmem : '\n' ∈ l := by
        rw [List.getLast?_eq_some_iff] at hc
        obtain ⟨ys, rfl⟩ := hc
        simp
      have := List.count_pos_iff.mpr hmem
      omega
    · have h1 : ([c] ≠ ['\n']) := by simp [hnl]
      rw [if_pos h1]
      omega

theorem fitCount_lt_of_overflow (m : Nat) (L : List (List Char))
    (h : m < sumLen L) : fitCount m 0 L < L.length := by
  rcases Nat.lt_or_ge (fitCount m 0 L) L.length with hlt | hge
  · exact hlt
  · exfalso
    have heq : fitCount m 0 L = L.length :=
      Nat.le_antisymm (fitCount_le_length m _ _) hge
    have := fitCount_fit m L 0 (Nat.zero_le m)
    rw [heq, List.take_length] at this
    omega

theorem write_eq_no_overflow (st : TruncStream) (w : List Char)
    (hle : st.current ≤ st.maxsize)
    (hcur2 : st.current + sumLen (splitLines w) ≤ st.maxsize) :
    st.write w = { st with
                   current := st.current + sumLen (splitLines w),
                   buf := st.buf ++ w } := by
  have hfit : fitCount st.maxsize st.current (splitLines w)
      = (splitLines w).length :=
    fitCount_eq_length_of_le _ _ _ hcur2
  simp only [TruncStream.write, writeLoop_eq]
  simp [hle, hfit, splitLines_flatten, Nat.not_lt.mpr hcur2]

theorem write_eq_break (st : TruncStream) (w : List Char)
    (hle : st.current ≤ st.maxsize)
    (hfit : fitCount st.maxsize st.current (splitLines w) < (splitLines w).length) :
    st.write w =
      { st with
        current := st.current + sumLen ((splitLines w).take
          (fitCount st.maxsize st.current (splitLines w) + 1)),
        buf := st.buf ++ ((splitLines w).take
          (fitCount st.maxsize st.current (splitLines w))).flatten,
        trunced := st.trunced + (w.drop (sumLen ((splitLines w).take
          (fitCount st.maxsize st.current (splitLines w))))).count '\n',
        lastchar := lastOne (w.drop (sumLen ((splitLines w).take
          (fitCount st.maxsize st.current (splitLines w))))) } := by
  have hbrk := fitCount_break st.maxsize (splitLines w) st.current hfit
  simp only [TruncStream.write, writeLoop_eq]
  simp [hle, Nat.ne_of_lt hfit, hfit, hbrk]

theorem write_eq_skip (st : TruncStream) (w : List Char)
    (hgt : ¬(st.current ≤ st.maxsize)) :
    st.write w = { st with
                   trunced := st.trunced + w.count '\n',
                   lastchar := lastOne w } := by
  simp only [TruncStream.write]
  simp [hgt, Nat.lt_of_not_le hgt]

theorem truncInv_write (m : Nat) (note : Bool) (L : List (List Char))
    (w : List Char) (st : TruncStream) (h : TruncInv m note L st) :
    TruncInv m note (L ++ splitLines w) (st.write w) := by
  obtain ⟨hm, hn, hdis⟩ := h
  rcases hdis with ⟨hle, hcur, hbuf, htr, hlc⟩ | ⟨hov, hcur, hbuf, hcnt⟩
  · -- not yet overflowed
    have hle' : st.current ≤ st.maxsize := by omega
    by_cases h2 : sumLen (L ++ splitLines w) ≤ m
    · -- still fits entirely
      rw [sumLen_append] at h2
      rw [write_eq_no_overflow st w hle' (by omega)]
      refine ⟨hm, hn, Or.inl ⟨by rw [sumLen_append]; omega, ?_, ?_, htr, hlc⟩⟩
      · simp only
        rw [hcur, sumLen_append]
      · simp only
        rw [hbuf, List.flatten_append, splitLines_flatten]
    · -- this write passes the limit
      rw [sumLen_append] at h2
      have hkL : fitCount m 0 L = L.length :=
        fitCount_eq_length_of_le m L 0 (by omega)
      have hk : fitCount st.maxsize st.current (splitLines w)
          < (splitLines w).length := by
        rcases Nat.lt_or_ge (fitCount st.maxsize st.current (splitLines w))
          (splitLines w).length with hlt | hge
        · exact hlt
        · exfalso
          have heq : fitCount st.maxsize st.current (splitLines w)
              = (splitLines w).length :=
            Nat.le_antisymm (fitCount_le_length _ _ _) hge
          have := fitCount_fit st.maxsize (splitLines w) st.current hle'
          rw [heq, List.take_length, hm, hcur] at this
          omega
      have hbrk := fitCount_break st.maxsize (splitLines w) st.current hk
      have happ : fitCount m 0 (L ++ splitLines w)
          = L.length + fitCount m (sumLen L) (splitLines w) := by
        rw [fitCount_append_of_fit m L (splitLines w) 0 hkL]
        simp
      rw [write_eq_break st w hle' hk]
      have hmc : fitCount st.maxsize st.current (splitLines w)
          = fitCount m (sumLen L) (splitLines w) := by rw [hm, hcur]
      refine ⟨hm, hn, Or.inr ⟨by rw [sumLen_append]; omega, ?_, ?_, ?_⟩⟩
      · simp only
        rw [hm, hcur] at hbrk ⊢
        omega
      · simp only
        rw [hbuf, happ, hmc, ← List.flatten_append]
        congr 1
        rw [List.take_append_eq_append_take,
          List.take_of_length_le (by omega : L.length ≤ L.length + _)]
        congr 2
        omega
      · unfold TruncStream.getTruncatedLineCount
        simp only [htr, Nat.zero_add]
        exact one_le_truncpiece _
  · -- already overflowed: the loop is skipped, everything is dropped
    have hkb : fitCount m 0 L < L.length :=
      fitCount_lt_of_overflow m L hov
    have happ : fitCount m 0 (L ++ splitLines w) = fitCount m 0 L :=
      fitCount_append_of_break m L (splitLines w) 0 hkb
    have hnle : ¬(st.current ≤ st.maxsize) := by omega
    rw [write_eq_skip st w hnle]
    refine ⟨hm, hn, Or.inr ⟨by rw [sumLen_append]; omega,
        by show m < st.current; omega, ?_, ?_⟩⟩
    · simp only
      rw [hbuf, happ, List.take_append_eq_append_take,
        Nat.sub_eq_zero_of_le (Nat.le_of_lt hkb), List.take_zero,
        List.append_nil]
    · unfold TruncStream.getTruncatedLineCount
      dsimp only
      have := one_le_truncpiece w
      omega

theorem truncInv_writeAll (m : Nat) (note : Bool) (ws : List (List Char)) :
    TruncInv m note (ws.flatMap splitLines) ((TruncStream.new m note).writeAll ws) := by
  induction ws using List.reverseRecOn with
  | nil =>
    refine ⟨rfl, rfl, ?_⟩
    left
    simp [TruncStream.new, TruncStream.writeAll, sumLen]
  | append_singleton ws w ih =>
    have hfold : (TruncStream.new m note).writeAll (ws ++ [w])
        = ((TruncStream.new m note).writeAll ws).write w := by
      unfold TruncStream.writeAll
      rw [List.foldl_append]
      rfl
    have hlines : (ws ++ [w]).flatMap splitLines
        = ws.flatMap splitLines ++ splitLines w := by
      rw [List.flatMap_append]
      simp
    rw [hfold, hlines]
    exact truncInv_write m note _ w _ ih

/-- C10: over any sequence of `write` calls on a fresh truncating stream of
limit `maxsize`, the bytes forwarded to the wrapped stream are exactly the
greedy whole-line fit of the written lines — so the first line that would
push past the limit is dropped entirely, never partially — and their total
never exceeds `maxsize`. -/
theorem C10_write_bounded (maxsize : Nat) (note : Bool) (ws : List (List Char)) :
    ((TruncStream.new maxsize note).writeAll ws).buf
      = ((ws.flatMap splitLines).take
          (fitCount maxsize 0 (ws.flatMap splitLines))).flatten ∧
    ((TruncStream.new maxsize note).writeAll ws).buf.length ≤ maxsize := by
  have h := truncInv_writeAll maxsize note ws
  obtain ⟨hm, hn, hdis⟩ := h
  rcases hdis with ⟨hle, hcur, hbuf, htr, hlc⟩ | ⟨hov, hcur, hbuf, hcnt⟩
  · have hk : fitCount maxsize 0 (ws.flatMap splitLines)
        = (ws.flatMap splitLines).length :=
      fitCount_eq_length_of_le maxsize _ 0 (by omega)
    rw [hbuf, hk, List.take_length]
    refine ⟨rfl, ?_⟩
    rw [← sumLen_eq_length_flatten]
    omega
  · rw [hbuf]
    refine ⟨rfl, ?_⟩
    rw [← sumLen_eq_length_flatten]
    have := fitCount_fit maxsize (ws.flatMap splitLines) 0 (Nat.zero_le maxsize)
    omega

/-! ## Supporting lemmas: group matching and groupset building -/

theorem gbcLoop_eq_filter (r p : String) : ∀ gs : List Group,
    gbcLoop r p gs =
      (gs.filter (fun g => appliesTo g r p && !g.ignore_if_other_matches),
       gs.filter (fun g => appliesTo g r p && g.ignore_if_other_matches)) := by
  intro gs
  induction gs with
  | nil => rfl
  | cons g gs ih =>
    simp only [gbcLoop, ih, List.filter_cons]
    by_cases ha : appliesTo g r p
    · by_cases hi : g.ignore_if_other_matches
      · simp [ha, hi]
      · simp [ha, hi]
    · simp [ha]

/-- C1: For every change and configuration, the group matcher returns all
applying groups with the ignore-if-other-matches flag unset when that list
is non-empty, and otherwise all applying groups with the flag set; the
result is empty exactly when no group's predicates matched the change.
(The operation is a total function: it cannot fail.) -/
theorem C1_group_matcher (groups : List Group) (repos_path : String) (c : Change) :
    (getGroupsByChange groups repos_path c =
      (if (groups.filter (fun g => appliesTo g repos_path (changeTestPath c)
            && !g.ignore_if_other_matches)).isEmpty
       then groups.filter (fun g => appliesTo g repos_path (changeTestPath c)
            && g.ignore_if_other_matches)
       else groups.filter (fun g => appliesTo g repos_path (changeTestPath c)
            && !g.ignore_if_other_matches))) ∧
    (getGroupsByChange groups repos_path c = [] ↔
      ∀ g ∈ groups, ¬(appliesTo g repos_path (changeTestPath c) = true)) := by
  have hloop := gbcLoop_eq_filter repos_path (changeTestPath c) groups
  constructor
  · unfold getGroupsByChange
    rw [hloop]
  · unfold getGroupsByChange
    rw [hloop]
    simp only
    by_cases hsel : (groups.filter (fun g =>
        appliesTo g repos_path (changeTestPath c)
          && !g.ignore_if_other_matches)).isEmpty
    · rw [if_pos hsel]
      rw [List.isEmpty_iff] at hsel
      rw [List.filter_eq_nil_iff] at hsel
      rw [List.filter_eq_nil_iff]
      constructor
      · intro hign g hg
        have h1 := hsel g hg
        have h2 := hign g hg
        intro ha
        cases hi : g.ignore_if_other_matches
        · exact h1 (by simp [ha, hi])
        · exact h2 (by simp [ha, hi])
      · intro hall g hg
        have := hall g hg
        simp [this]
    · rw [if_neg hsel]
      rw [List.isEmpty_iff] at hsel
      constructor
      · intro habs
        exact absurd habs hsel
      · intro hall
        exfalso
        apply hsel
        rw [List.filter_eq_nil_iff]
        intro g hg
        have := hall g hg
        simp [this]

theorem gbcLoopIdx_lengths (r p : String) : ∀ gs : List (Nat × Group),
    ((gbcLoopIdx r p gs).1.length = (gbcLoop r p (gs.map Prod.snd)).1.length) ∧
    ((gbcLoopIdx r p gs).2.length = (gbcLoop r p (gs.map Prod.snd)).2.length) := by
  intro gs
  induction gs with
  | nil => exact ⟨rfl, rfl⟩
  | cons ig gs ih =>
    obtain ⟨i, g⟩ := ig
    simp only [gbcLoopIdx, gbcLoop, List.map_cons]
    by_cases ha : appliesTo g r p
    · by_cases hi : g.ignore_if_other_matches
      · simp only [if_pos ha, if_pos hi, List.length_cons]
        exact ⟨ih.1, by rw [ih.2]⟩
      · simp only [if_pos ha, if_neg hi, List.length_cons]
        exact ⟨by rw [ih.1], ih.2⟩
    · simp only [if_neg ha]
      exact ih

theorem getGroupIdxs_nil_iff (groups : List Group) (r : String) (c : Change) :
    (getGroupIdxsByChange groups r c = [] ↔ getGroupsByChange groups r c = []) := by
  unfold getGroupIdxsByChange getGroupsByChange
  obtain ⟨h1, h2⟩ := gbcLoopIdx_lengths r (changeTestPath c) groups.enum
  rw [List.enum_map_snd] at h1 h2
  by_cases hb : (gbcLoopIdx r (changeTestPath c) groups.enum).1.isEmpty
  · have hb2 : (gbcLoop r (changeTestPath c) groups).1.isEmpty = true := by
      rw [List.isEmpty_iff] at hb ⊢
      rw [← List.length_eq_zero, ← h1, List.length_eq_zero]
      exact hb
    rw [if_pos hb, if_pos hb2]
    rw [← List.length_eq_zero, h2, List.length_eq_zero]
  · have hb2 : ¬((gbcLoop r (changeTestPath c) groups).1.isEmpty = true) := by
      rw [List.isEmpty_iff] at hb ⊢
      rw [← List.length_eq_zero, ← h1, List.length_eq_zero]
      exact hb
    rw [if_neg hb, if_neg hb2]
    rw [← List.length_eq_zero, h1, List.length_eq_zero]

theorem addChange_ne_nil (i : Nat) (c : Change) :
    ∀ acc, addChange i c acc ≠ [] := by
  intro acc
  cases acc with
  | nil => simp [addChange]
  | cons p rest =>
    obtain ⟨j, cs⟩ := p
    unfold addChange
    split <;> simp

theorem foldl_addChange_ne_nil (c : Change) : ∀ (idxs : List Nat)
    (acc : List (Nat × List Change)), acc ≠ [] →
    idxs.foldl (fun a i => addChange i c a) acc ≠ [] := by
  intro idxs
  induction idxs with
  | nil => intro acc h; exact h
  | cons i rest ih =>
    intro acc _
    simp only [List.foldl_cons]
    exact ih _ (addChange_ne_nil i c acc)

theorem foldl_addChange_nil_iff (c : Change) (idxs : List Nat)
    (acc : List (Nat × List Change)) :
    idxs.foldl (fun a i => addChange i c a) acc = [] ↔ acc = [] ∧ idxs = [] := by
  constructor
  · intro h
    cases idxs with
    | nil => exact ⟨h, rfl⟩
    | cons i rest =>
      exfalso
      apply foldl_addChange_ne_nil c rest (addChange i c acc)
        (addChange_ne_nil i c acc)
      simpa using h
  · rintro ⟨rfl, rfl⟩
    rfl

theorem accumulate_nil_iff (groups : List Group) (r : String)
    (changes : List Change) :
    accumulate groups r changes = [] ↔
      ∀ ch ∈ changes, getGroupIdxsByChange groups r ch = [] := by
  have hgen : ∀ (chs : List Change) (acc : List (Nat × List Change)),
      chs.foldl (fun a ch => (getGroupIdxsByChange groups r ch).foldl
        (fun a2 i => addChange i ch a2) a) acc = [] ↔
      acc = [] ∧ ∀ ch ∈ chs, getGroupIdxsByChange groups r ch = [] := by
    intro chs
    induction chs with
    | nil => simp
    | cons ch rest ih =>
      intro acc
      simp only [List.foldl_cons, ih, foldl_addChange_nil_iff, List.mem_cons]
      constructor
      · rintro ⟨⟨h1, h2⟩, h3⟩
        exact ⟨h1, fun x hx => by rcases hx with rfl | hx
                                  · exact h2
                                  · exact h3 x hx⟩
      · rintro ⟨h1, h2⟩
        exact ⟨⟨h1, h2 ch (Or.inl rfl)⟩, fun x hx => h2 x (Or.inr hx)⟩
  unfold accumulate
  rw [hgen]
  simp

theorem mergeInto_ne_nil (g : Group) (cl allchanges : List Change) :
    ∀ sets, mergeInto g cl allchanges sets ≠ [] := by
  intro sets
  cases sets with
  | nil => simp [mergeInto]
  | cons s rest =>
    unfold mergeInto
    split <;> simp

theorem foldl_mergeInto_ne_nil (groups : List Group) (changes : List Change) :
    ∀ (ps : List (Nat × List Change)) (sets : List GroupSet), sets ≠ [] →
    ps.foldl (fun st p => mergeInto (groups.getD p.1 group0) p.2 changes st)
      sets ≠ [] := by
  intro ps
  induction ps with
  | nil => intro sets h; exact h
  | cons p rest ih =>
    intro sets _
    simp only [List.foldl_cons]
    exact ih _ (mergeInto_ne_nil _ _ _ sets)

theorem getGroupSets_nil_iff (groups : List Group) (r : String)
    (changes : List Change) :
    getGroupSets groups r changes = [] ↔ accumulate groups r changes = [] := by
  unfold getGroupSets
  cases hacc : accumulate groups r changes with
  | nil => simp
  | cons p ps =>
    simp only [List.foldl_cons]
    constructor
    · intro h
      exfalso
      exact foldl_mergeInto_ne_nil groups changes ps _
        (mergeInto_ne_nil _ _ _ []) h
    · intro h
      cases h

/-- The claim as stated is false on the code: when the configured groups
match nothing, `Main._getGroupSets` returns the empty list for a
non-empty change list — no default `GroupSet` is synthesized there. -/
theorem C3_counterexample :
    getGroupSets
      [⟨"g", none, some (fun _ => false), none, false, [], XPath.no, "", 0⟩]
      "repo" [⟨"a", false⟩] = [] ∧
    ([⟨"a", false⟩] : List Change) ≠ [] :=
  ⟨rfl, by decide⟩

/-- C3 (amended): the groupset builder itself never synthesizes a default
group set; instead, the configuration loader supplies the single
`[defaults]`-derived group exactly when the config file has no group
sections (so the group list is never empty), and the builder returns a
non-empty GroupSet list precisely when at least one group matched at
least one change — otherwise the event produces no notification at all. -/
theorem C3_default_group (sections : List Group) (dflt : Group)
    (groups : List Group) (r : String) (changes : List Change) :
    extractGroupSections sections dflt ≠ [] ∧
    (getGroupSets groups r changes = [] ↔
      ∀ ch ∈ changes, getGroupsByChange groups r ch = []) := by
  constructor
  · unfold extractGroupSections
    split <;> simp_all [List.isEmpty_iff]
  · rw [getGroupSets_nil_iff, accumulate_nil_iff]
    constructor
    · intro h ch hch
      rw [← getGroupIdxs_nil_iff]
      exact h ch hch
    · intro h ch hch
      rw [getGroupIdxs_nil_iff]
      exact h ch hch

/-- C2: a candidate (group, changelist) pair is merged into the first
stored `GroupSet` whose change list is identical and whose representative
(first) group is value-equal under the `eqignore`-reduced equality —
otherwise a fresh set is appended; and the concrete scenario: two groups
differing only in name and recipients, matching the same 3 changes,
produce exactly one `GroupSet` holding both groups and all 3 changes. -/
theorem C2_groupset_merge :
    (∀ (g : Group) (cl allchanges : List Change) (sets : List GroupSet),
      (∀ s ∈ sets, mergeCond g cl s = false) →
      mergeInto g cl allchanges sets = sets ++ [mkGroupSet [g] cl allchanges]) ∧
    (∀ (g : Group) (cl allchanges : List Change) (pre post : List GroupSet)
      (s : GroupSet),
      (∀ t ∈ pre, mergeCond g cl t = false) → mergeCond g cl s = true →
      mergeInto g cl allchanges (pre ++ s :: post)
        = pre ++ { s with groups := s.groups ++ [g] } :: post) ∧
    (getGroupSets
      [⟨"g1", none, some (fun _ => true), none, false, ["a@x"], XPath.no, "T", 60⟩,
       ⟨"g2", none, some (fun _ => true), none, false, ["b@x"], XPath.no, "T", 60⟩]
      "repo" [⟨"p1", false⟩, ⟨"p2", false⟩, ⟨"p3", false⟩]
      = [{ groups :=
            [⟨"g1", none, some (fun _ => true), none, false, ["a@x"],
               XPath.no, "T", 60⟩,
             ⟨"g2", none, some (fun _ => true), none, false, ["b@x"],
               XPath.no, "T", 60⟩],
           changes := [⟨"p1", false⟩, ⟨"p2", false⟩, ⟨"p3", false⟩],
           xchanges := some [] }]) := by
  refine ⟨?_, ?_, ?_⟩
  · intro g cl allchanges sets h
    induction sets with
    | nil => rfl
    | cons s rest ih =>
      have hs : mergeCond g cl s = false := h s (by simp)
      unfold mergeInto
      rw [hs]
      simp only [Bool.false_eq_true, if_false, List.cons_append]
      rw [ih (fun t ht => h t (by simp [ht]))]
  · intro g cl allchanges pre post s hpre hs
    induction pre with
    | nil =>
      simp only [List.nil_append]
      unfold mergeInto
      rw [hs]
      simp
    | cons t pre ih =>
      have ht : mergeCond g cl t = false := hpre t (by simp)
      simp only [List.cons_append]
      unfold mergeInto
      rw [ht]
      simp only [Bool.false_eq_true, if_false]
      rw [ih (fun u hu => hpre u (by simp [hu]))]
  · rfl

/-- Closed instance of the first part of `C2_groupset_merge`: inserting
into an empty set list appends a fresh `GroupSet`. -/
theorem C2_groupset_merge_witness :
    mergeInto group0 [] [] [] = [] ++ [mkGroupSet [group0] [] []] :=
  C2_groupset_merge.1 group0 [] [] [] (by intro s hs; cases hs)

/-! ## Main.run error aggregation (C9) -/

theorem runInner_benign (rev : Nat) : ∀ (gs : List NotifierRun)
    (errs : List String), (∀ n ∈ gs, benign n.outcome = true) →
    runInner rev errs gs = Sum.inl (errs ++ gs.filterMap (fun n =>
      match n.outcome with
      | NotifierOutcome.failure m => some (failureRecord rev n m)
      | _ => none)) := by
  intro gs
  induction gs with
  | nil => intro errs _; simp [runInner]
  | cons n rest ih =>
    intro errs h
    have hn : benign n.outcome = true := h n (by simp)
    cases hout : n.outcome with
    | ok =>
      simp only [runInner, hout, List.filterMap_cons]
      exact ih errs (fun x hx => h x (by simp [hx]))
    | keyboardInterrupt => rw [hout] at hn; simp [benign] at hn
    | systemExit => rw [hout] at hn; simp [benign] at hn
    | svnError m => rw [hout] at hn; simp [benign] at hn
    | failure m =>
      simp only [runInner, hout, List.filterMap_cons]
      rw [ih (errs ++ [failureRecord rev n m]) (fun x hx => h x (by simp [hx]))]
      simp

/-- C9: during one event run, notifier exceptions other than keyboard
interrupt, system exit and repository errors never stop the remaining
groupsets: every failure is captured as a backtrace record, and after all
groupsets have been processed, the run returns cleanly if there were no
failures, and otherwise raises exactly one aggregate `NotifierError`
carrying one record per failure, in order. -/
theorem C9_error_aggregation (rev : Nat) (gss : List (List NotifierRun))
    (h : ∀ n ∈ gss.flatten, benign n.outcome = true) :
    runMain rev gss =
      (if (failureRecords rev gss).isEmpty then RunResult.ok
       else RunResult.notifierError (failureRecords rev gss)) := by
  have hgen : ∀ (l : List (List NotifierRun)) (errs : List String),
      (∀ n ∈ l.flatten, benign n.outcome = true) →
      runOuter rev errs l =
        (if (errs ++ l.flatten.filterMap (fun n =>
              match n.outcome with
              | NotifierOutcome.failure m => some (failureRecord rev n m)
              | _ => none)).isEmpty
         then RunResult.ok
         else RunResult.notifierError (errs ++ l.flatten.filterMap (fun n =>
              match n.outcome with
              | NotifierOutcome.failure m => some (failureRecord rev n m)
              | _ => none))) := by
    intro l
    induction l with
    | nil => intro errs _; simp [runOuter]
    | cons gs rest ih =>
      intro errs hb
      simp only [runOuter]
      rw [runInner_benign rev gs errs
        (fun x hx => hb x (by simp [List.flatten_cons, hx]))]
      dsimp only
      rw [ih (errs ++ gs.filterMap _)
        (fun x hx => hb x (by simp [List.flatten_cons, hx]))]
      simp [List.flatten_cons, List.filterMap_append]
  unfold runMain failureRecords
  rw [hgen gss [] h]
  simp

/-- Closed instance of `C9_error_aggregation`: two groupsets, each with one
collectable failure, produce one aggregate error with both records. -/
theorem C9_error_aggregation_witness :
    runMain 7 [[⟨"m1", ["g"], NotifierOutcome.ok⟩,
                ⟨"m1", ["g"], NotifierOutcome.failure "boom"⟩],
               [⟨"m2", ["h"], NotifierOutcome.failure "bam"⟩]]
      = RunResult.notifierError
          (failureRecords 7
            [[⟨"m1", ["g"], NotifierOutcome.ok⟩,
              ⟨"m1", ["g"], NotifierOutcome.failure "boom"⟩],
             [⟨"m2", ["h"], NotifierOutcome.failure "bam"⟩]]) := by
  rw [C9_error_aggregation 7 _ (by decide)]
  rfl

/-! ## Split-mode finishing (C5, C6) -/

/-- C5: when split mode finishes with part count N — one part means one
unmodified message; more parts than a configured drop threshold means one
summary message whose notice carries both N and the threshold; otherwise
exactly N messages, each tagged with the 1-indexed `[i/N]` token. -/
theorem C5_split_finish (parts : List (List Char)) (drop : Nat)
    (dropBody : List Char) :
    (parts.length = 1 →
      splitTextMails parts drop dropBody = [⟨none, getPart parts 0⟩]) ∧
    (parts.length ≠ 1 → drop ≠ 0 → drop < parts.length →
      splitTextMails parts drop dropBody
        = [⟨none, dropBody ++ dropNotice parts.length drop⟩] ∧
      (∃ s t, dropNotice parts.length drop
        = s ++ (toString parts.length).toList ++ t) ∧
      (∃ s t, dropNotice parts.length drop
        = s ++ (toString drop).toList ++ t)) ∧
    (parts.length ≠ 1 → ¬(drop ≠ 0 ∧ drop < parts.length) →
      splitTextMails parts drop dropBody
        = (List.range parts.length).map (fun idx =>
            ⟨some (countToken (idx + 1) parts.length), getPart parts idx⟩)) := by
  refine ⟨?_, ?_, ?_⟩
  · intro h
    unfold splitTextMails
    rw [if_pos h]
  · intro h1 h2 h3
    refine ⟨?_, ?_, ?_⟩
    · unfold splitTextMails
      rw [if_neg h1, if_pos ⟨h2, h3⟩]
    · exact ⟨dropNoticeA,
        dropNoticeB ++ (toString drop).toList ++ dropNoticeC,
        by simp [dropNotice]⟩
    · exact ⟨dropNoticeA ++ (toString parts.length).toList ++ dropNoticeB,
        dropNoticeC, by simp [dropNotice]⟩
  · intro h1 h2
    unfold splitTextMails
    rw [if_neg h1, if_neg h2]

/-- Closed instance of `C5_split_finish`: a single part yields exactly one
unmodified message. -/
theorem C5_split_finish_witness :
    splitTextMails [("x".toList)] 0 [] = [⟨none, getPart [("x".toList)] 0⟩] :=
  (C5_split_finish [("x".toList)] 0 []).1 rfl

/-- The claim's `one part iff total ≤ maxBytes` is false on the code: the
multimail splitter emits a single mail whenever there are no diff
attachments, even when the summary alone exceeds the limit. -/
theorem C6_counterexample :
    emittedCount (multiSplitMails 3 5 [] 0) = 1 ∧ 3 < 5 + ([] : List Nat).sum := by
  decide

theorem packLoop_length (maxsize nummails : Nat) : ∀ (ps : List (Nat × Nat))
    (mcount asize : Nat) (parts : List MPart), parts ≠ [] →
    (packLoop maxsize nummails mcount asize parts ps).length
      = greedyCountAux maxsize asize (ps.map Prod.snd) + 1 := by
  intro ps
  induction ps with
  | nil =>
    intro mcount asize parts h
    simp only [packLoop, greedyCountAux, List.map_nil]
    rw [if_neg (by simpa [List.isEmpty_iff] using h)]
    rfl
  | cons p rest ih =>
    intro mcount asize parts h
    obtain ⟨idx, size⟩ := p
    simp only [packLoop, greedyCountAux, List.map_cons]
    by_cases hover : maxsize < asize + size
    · rw [if_pos hover, if_pos hover]
      simp only [List.length_cons]
      rw [ih (mcount + 1) size _ (by simp)]
    · rw [if_neg hover, if_neg hover]
      rw [ih mcount (asize + size) _ (by simp)]

theorem greedyCountAux_zero (maxsize : Nat) : ∀ (sizes : List Nat) (asize : Nat),
    greedyCountAux maxsize asize sizes = 0 → sizes ≠ [] →
    asize + sizes.sum ≤ maxsize := by
  intro sizes
  induction sizes with
  | nil => intro asize _ h; exact absurd rfl h
  | cons s rest ih =>
    intro asize h _
    simp only [greedyCountAux] at h
    by_cases hover : maxsize < asize + s
    · rw [if_pos hover] at h
      omega
    · rw [if_neg hover] at h
      cases rest with
      | nil =>
        simp only [List.sum_cons, List.sum_nil]
        omega
      | cons r rs =>
        have hsub := ih (asize + s) h (by simp)
        simp only [List.sum_cons] at hsub ⊢
        omega

/-- C6 (amended): the multimail split chain always emits at least one
mail; it emits exactly one when the total content fits — but also whenever
there are no diff attachments at all, however large the summary part is
(the summary is never split), and when the drop fallback fires; in the
remaining cases the emitted count equals the greedy size-based break
count, which is then at least 2. -/
theorem C6_split_partcount (maxsize asize : Nat) (sizes : List Nat) (drop : Nat) :
    1 ≤ emittedCount (multiSplitMails maxsize asize sizes drop) ∧
    (asize + sizes.sum ≤ maxsize →
      emittedCount (multiSplitMails maxsize asize sizes drop) = 1) ∧
    (sizes = [] →
      emittedCount (multiSplitMails maxsize asize sizes drop) = 1) ∧
    (maxsize < asize + sizes.sum → sizes ≠ [] →
      ¬(drop ≠ 0 ∧ drop < greedyCount maxsize asize sizes) →
      emittedCount (multiSplitMails maxsize asize sizes drop)
        = greedyCount maxsize asize sizes ∧
      2 ≤ greedyCount maxsize asize sizes) := by
  refine ⟨?_, ?_, ?_, ?_⟩
  · unfold multiSplitMails
    by_cases h1 : asize + sizes.sum ≤ maxsize ∨ sizes = []
    · simp only [if_pos h1, emittedCount]
      omega
    · simp only [if_neg h1]
      by_cases h2 : drop ≠ 0 ∧ drop < greedyCount maxsize asize sizes
      · simp only [if_pos h2, emittedCount]
        omega
      · simp only [if_neg h2, emittedCount]
        rw [packLoop_length maxsize _ sizes.enum 1 asize [MPart.summary asize]
          (by simp)]
        omega
  · intro h
    unfold multiSplitMails
    rw [if_pos (Or.inl h)]
    rfl
  · intro h
    unfold multiSplitMails
    rw [if_pos (Or.inr h)]
    rfl
  · intro hov hne hdrop
    have hcond : ¬(asize + sizes.sum ≤ maxsize ∨ sizes = []) := by
      rintro (h | h)
      · omega
      · exact hne h
    have hge2 : 2 ≤ greedyCount maxsize asize sizes := by
      unfold greedyCount
      by_cases hz : greedyCountAux maxsize asize sizes = 0
      · exfalso
        have := greedyCountAux_zero maxsize sizes asize hz hne
        omega
      · omega
    unfold multiSplitMails
    simp only [if_neg hcond]
    simp only [if_neg hdrop]
    simp only [emittedCount]
    rw [packLoop_length maxsize _ sizes.enum 1 asize [MPart.summary asize]
      (by simp)]
    rw [List.enum_map_snd]
    exact ⟨rfl, hge2⟩

/-- Closed instance of `C6_split_partcount`: content that fits yields one
mail. -/
theorem C6_split_partcount_witness :
    emittedCount (multiSplitMails 10 3 [2] 0) = 1 :=
  (C6_split_partcount 10 3 [2] 0).2.1 (by decide)

/-! ## Decorator selection (C7) -/

/-- The claim is false on the code: in `_textmail.decorateNotifier`, a
propchange event in scope under `showLinksOnly` mode with the truncate
submode unset gets NO decorator at all (no Truncate), so the message is
unbounded. -/
theorem C7_counterexample :
    textDecorate (some ⟨100, AMode.urls, false, true, false, 0⟩)
      RMode.propchange = [] ∧
    ([] : List DecoLayer) ≠ [DecoLayer.truncating] := by
  constructor
  · rfl
  · decide

/-- C7 (amended): for the text-mail notifier, in-scope non-commit events
under showLinksOnly/split get exactly the Truncate decorator when the
truncate submode is set and no decorator otherwise; `maxBytes = 0` or an
out-of-scope non-commit event means no decorator. The multi-mail
notifier, by contrast, checks neither event kind nor scope: it always
applies a decorator once an action with non-zero `maxBytes` is present. -/
theorem C7_decorator_selection :
    (∀ mode, textDecorate none mode = []) ∧
    (∀ (a : MailAction) (mode : RMode), a.maxbytes = 0 →
      textDecorate (some a) mode = [] ∧ multiDecorate (some a) = []) ∧
    (∀ (a : MailAction) (mode : RMode), mode ≠ RMode.commit →
      ((a.scopeRevprop && decide (mode = RMode.propchange)) ||
       (a.scopeLocks && (decide (mode = RMode.lock)
          || decide (mode = RMode.unlock)))) = true →
      a.maxbytes ≠ 0 → (a.mode = AMode.urls ∨ a.mode = AMode.split) →
      textDecorate (some a) mode
        = (if a.truncate then [DecoLayer.truncating] else [])) ∧
    (∀ (a : MailAction) (mode : RMode), mode ≠ RMode.commit →
      ((a.scopeRevprop && decide (mode = RMode.propchange)) ||
       (a.scopeLocks && (decide (mode = RMode.lock)
          || decide (mode = RMode.unlock)))) = false →
      textDecorate (some a) mode = []) ∧
    (∀ a : MailAction, a.maxbytes ≠ 0 → multiDecorate (some a) ≠ []) := by
  refine ⟨?_, ?_, ?_, ?_, ?_⟩
  · intro mode
    rfl
  · intro a mode h
    constructor
    · simp [textDecorate, h]
    · simp [multiDecorate, h]
  · intro a mode hnc hsc hmb hm
    have his : decide (mode = RMode.commit) = false := by
      simp [hnc]
    rcases hm with h | h <;>
      simp [textDecorate, his, hsc, hmb, h]
  · intro a mode hnc hsc
    have his : decide (mode = RMode.commit) = false := by
      simp [hnc]
    simp [textDecorate, his, hsc]
  · intro a h
    cases hmode : a.mode <;> cases htr : a.truncate <;>
      simp [multiDecorate, h, hmode, htr]

/-- Closed instance of `C7_decorator_selection`: with `maxBytes` 0 neither
notifier applies any decorator. -/
theorem C7_decorator_selection_witness :
    textDecorate (some ⟨0, AMode.truncate, false, false, false, 0⟩)
      RMode.commit = [] :=
  (C7_decorator_selection.2.1 ⟨0, AMode.truncate, false, false, false, 0⟩
    RMode.commit rfl).1

/-! ## showLinksOnly URL fallback (C8) -/

/-- The claim is false on the multimail code path: when the truncate
submode is set and the primary Truncate wrapper reports dropped lines,
`_multimail.URLDecorator._getMultiMails` emits the truncated primary
content as the single part — not the secondary link buffer (the URL
buffer content `"U"` appears nowhere in the output). -/
theorem C8_counterexample :
    multiUrlMails 2 true true ("abc\ndef\n".toList) [5] ("U".toList)
      = [[strippedNote 2]] ∧
    ¬('U' ∈ strippedNote 2) := by
  constructor
  · rfl
  · decide

theorem sumLen_flatMap_splitLines (ws : List (List Char)) :
    sumLen (ws.flatMap splitLines) = ws.flatten.length := by
  induction ws with
  | nil => rfl
  | cons w rest ih =>
    rw [List.flatMap_cons, sumLen_append, sumLen_splitLines, List.flatten_cons,
      List.length_append, ih]

theorem getvalue_of_no_note (st : TruncStream) (h : st.add_note = false) :
    st.getvalue = st.buf := by
  unfold TruncStream.getvalue
  rw [if_neg (by simp [h])]

/-- C8 (amended): in the text-mail notifier the claim holds — the final
body is swapped to the secondary link buffer (run through a note-adding
Truncate wrapper when the truncate submode is set) exactly when the
primary content overflows `maxBytes`, and with no browser base URL the
secondary buffer carries the non-empty degraded one-line note; in the
multi-mail notifier, however, a reported truncation emits the truncated
primary value as the single part instead of the link buffer. -/
theorem C8_url_fallback (maxsize : Nat) (truncSub browserConf : Bool)
    (metadata pathlist diffs urlLines : List Char) :
    ((metadata ++ pathlist ++ diffs).length ≤ maxsize →
      composeUrlMode maxsize truncSub browserConf metadata pathlist diffs urlLines
        = metadata ++ pathlist ++ diffs) ∧
    (maxsize < (metadata ++ pathlist ++ diffs).length → truncSub = false →
      composeUrlMode maxsize truncSub browserConf metadata pathlist diffs urlLines
        = metadata ++ pathlist ++
            (if browserConf then urlsOnlyNoteText else degradedNoteText)
            ++ urlLines) ∧
    (maxsize < (metadata ++ pathlist ++ diffs).length → truncSub = true →
      composeUrlMode maxsize truncSub browserConf metadata pathlist diffs urlLines
        = ((TruncStream.new maxsize true).writeAll
            [metadata, pathlist,
             (if browserConf then urlsOnlyNoteText else degradedNoteText),
             urlLines]).getvalue) ∧
    degradedNoteText ≠ [] ∧
    (∀ (m2 : Nat) (browserConf2 : Bool) (summary : List Char)
       (diffSizes : List Nat) (urlValue : List Char),
      ((TruncStream.new m2 true).write summary).getTruncatedLineCount ≠ 0 →
      multiUrlMails m2 true browserConf2 summary diffSizes urlValue
        = [[((TruncStream.new m2 true).write summary).getvalue]]) := by
  obtain ⟨hm, hn, hdis⟩ :=
    truncInv_writeAll maxsize false [metadata, pathlist, diffs]
  have hsum : sumLen ([metadata, pathlist, diffs].flatMap splitLines)
      = (metadata ++ pathlist ++ diffs).length := by
    rw [sumLen_flatMap_splitLines]
    simp
  refine ⟨?_, ?_, ?_, by simp [degradedNoteText], ?_⟩
  · intro hle
    rcases hdis with ⟨_, _, hbuf, htr, hlc⟩ | ⟨hov, _, _, _⟩
    · have hcnt : ((TruncStream.new maxsize false).writeAll
          [metadata, pathlist, diffs]).getTruncatedLineCount = 0 := by
        unfold TruncStream.getTruncatedLineCount
        rw [htr, hlc]
        simp
      have hval : ((TruncStream.new maxsize false).writeAll
          [metadata, pathlist, diffs]).getvalue
          = metadata ++ pathlist ++ diffs := by
        rw [getvalue_of_no_note _ hn, hbuf]
        simp [splitLines_flatten, List.append_assoc]
      simp only [composeUrlMode, hcnt]
      simp [hval]
    · rw [hsum] at hov
      omega
  · intro hov hts
    rcases hdis with ⟨hle, _, _, _, _⟩ | ⟨_, _, _, hcnt⟩
    · rw [hsum] at hle
      omega
    · have hne : ((TruncStream.new maxsize false).writeAll
          [metadata, pathlist, diffs]).getTruncatedLineCount ≠ 0 := by omega
      simp only [composeUrlMode, hts]
      simp [hne, List.append_assoc]
  · intro hov hts
    rcases hdis with ⟨hle, _, _, _, _⟩ | ⟨_, _, _, hcnt⟩
    · rw [hsum] at hle
      omega
    · have hne : ((TruncStream.new maxsize false).writeAll
          [metadata, pathlist, diffs]).getTruncatedLineCount ≠ 0 := by omega
      simp only [composeUrlMode, hts]
      simp [hne]
  · intro m2 browserConf2 summary diffSizes urlValue hcnt
    simp [multiUrlMails, hcnt]

/-- Closed instance of `C8_url_fallback`: content under the limit is
emitted as-is. -/
theorem C8_url_fallback_witness :
    composeUrlMode 100 false true ("a".toList) ("b".toList) ("c".toList) []
      = ("a".toList) ++ ("b".toList) ++ ("c".toList) :=
  (C8_url_fallback 100 false true ("a".toList) ("b".toList) ("c".toList)
    []).1 (by decide)

end Svnmailer
